import Mathlib

/-!
Verification of the fifth cellular-automata library.

The development shallowly embeds the core of the repository:

* `src/plane.py` — the bit-packed N-dimensional grid (`Plane`), its stride
  computation, tuple indexing (`__getitem__` / `__setitem__`) and `flatten`;
* `src/configuration.py` — the bitarray generation of `Neighborhood`
  (`populate`, `get_totals`) and `Configuration` (`moore`, `neumann`,
  `passes`, `tolerates`);
* `src/ruleset.py` / `src/cam.py` — the earlier numpy generation of
  `Configuration.passes`, `Ruleset.applyTo` and `CAM.tick`.

Machine integers are modelled as `Int`/`Nat`; Python `%` on a positive
modulus is `Int.emod`; Python exceptions (IndexError, ValueError,
ZeroDivisionError, TypeError) are modelled with `Option`/`Except`.
-/

/-- Python truthiness of a bit: `int(b)`. -/
def bitVal (b : Bool) : ℕ := cond b 1 0

/-- Stride list of a shape, as built by `Plane.__init__` (plane.py:52-57):
iterating the reversed shape and prepending the running product yields, at
position `i`, the product of the dimensions after `i`. -/
def offsetsOf : List ℤ → List ℤ
  | [] => []
  | _ :: rest => rest.prod :: offsetsOf rest

/-- A `Plane` (plane.py): a shape together with the flat bit storage.
`self.offsets` is recomputed from the shape by `Plane.offsets`. -/
structure Plane where
  shape : List ℤ
  bits : List Bool
deriving DecidableEq, Repr

/-- `self.offsets`, the precomputed strides (plane.py:52-57). -/
def Plane.offsets (p : Plane) : List ℤ := offsetsOf p.shape

/-- `self.N` (plane.py:50). -/
def Plane.N (p : Plane) : ℕ := p.shape.length

/-- `sum([x*y for (x,y) in zip(index, offsets)])` (plane.py:87,125,171):
dot product of a coordinate tuple with the stride list (`zip` truncates to
the shorter list, as in Python). -/
def flattenSum : List ℤ → List ℤ → ℤ
  | x :: xs, y :: ys => x * y + flattenSum xs ys
  | _, _ => 0

/-- `Plane.__init__` (plane.py:31-66).  `bits = None` is the `none` case:
the storage is `reduce(mul, shape, 1) * bitarray(0)`, which in Python is
empty whenever the product is non-positive (hence `Int.toNat`).  With a
caller-supplied bitarray a `ValueError` (modelled `Except.error`) is raised
unless its length equals the product of the shape. -/
def planeInit (shape : List ℤ) (bits : Option (List Bool)) : Except Unit Plane :=
  match bits with
  | some bs => if (bs.length : ℤ) = shape.prod then .ok ⟨shape, bs⟩ else .error ()
  | none => .ok ⟨shape, List.replicate shape.prod.toNat false⟩

/-- Full-arity tuple read, `Plane.__getitem__` (plane.py:86-89): the flat
offset is the stride dot product reduced modulo the total bit count, and the
bit at that offset is returned.  `% 0` raises `ZeroDivisionError` in Python,
and an out-of-range bitarray access raises `IndexError`; both are `none`.
(A tuple shorter than `N` returns a sub-plane instead; that branch is not
modelled here.) -/
def Plane.getTuple (p : Plane) (index : List ℤ) : Option Bool :=
  if index.length = p.N then
    if p.bits.length = 0 then none
    else p.bits.get? ((flattenSum index p.offsets) % (p.bits.length : ℤ)).toNat
  else none

/-- Full-arity tuple write, `Plane.__setitem__` (plane.py:124-127): same
offset computation, then `self.bits[offset] = value`. -/
def Plane.setTuple (p : Plane) (index : List ℤ) (value : Bool) : Option Plane :=
  if index.length = p.N then
    if p.bits.length = 0 then none
    else
      let offset := ((flattenSum index p.offsets) % (p.bits.length : ℤ)).toNat
      if offset < p.bits.length then some ⟨p.shape, p.bits.set offset value⟩ else none
  else none

/-- `Plane.flatten` (plane.py:159-173): raises `ValueError` on an arity
mismatch, computes the stride dot product and reduces it modulo the total
bit count (`% 0` raising is the `none` case). -/
def Plane.flatten (p : Plane) (coordinates : List ℤ) : Option ℤ :=
  if coordinates.length = p.N then
    if p.bits.length = 0 then none
    else some ((flattenSum coordinates p.offsets) % (p.bits.length : ℤ))
  else none

/-- The concrete plane used to refute per-component wraparound: shape
`(2, 2)` with only bit `(0, 0)` set. -/
def counterPlane : Plane := ⟨[2, 2], [true, false, false, false]⟩

/-! ### Neighborhood generators (configuration.py:162-199) -/

/-- `itertools.product(*([-1,0,1],)*N)`: all `N`-tuples over `{-1,0,1}`,
first coordinate outermost, as `Configuration.moore` iterates them. -/
def tuplesOf : ℕ → List (List ℤ)
  | 0 => [[]]
  | n + 1 => ([-1, 0, 1] : List ℤ).flatMap (fun c => (tuplesOf n).map (fun t => c :: t))

/-- `Configuration.moore` (configuration.py:162-178): every tuple of
`{-1,0,1}^N` kept when `any(current)` holds, i.e. some component is
nonzero.  Only the dimension of the plane's shape is consulted. -/
def Configuration.moore (shape : List ℤ) : List (List ℤ) :=
  (tuplesOf shape.length).filter (fun t => t.any (fun z => !(z == 0)))

/-- `Configuration.neumann` (configuration.py:180-199): for each axis `i`
the offsets placing `-1` then `1` at position `i` of the zero tuple.  The
dictionary keys are inserted in this order and are pairwise distinct. -/
def Configuration.neumann (shape : List ℤ) : List (List ℤ) :=
  (List.range shape.length).flatMap
    (fun i => [(List.replicate shape.length (0 : ℤ)).set i (-1),
               (List.replicate shape.length (0 : ℤ)).set i 1])

/-! ### The numpy generation: ruleset.py and cam.py -/

/-- `next_state` of a ruleset.py `Configuration` (ruleset.py:51-62): either
a constant state or a callable of `(f_index, f_grid, indices, states)` (the
extra `*args` are folded into the closure). -/
inductive RsNext where
  | const : Bool → RsNext
  | fn : (ℕ → List Bool → List ℕ → List Bool → Bool) → RsNext

/-- A validity function as passed to `Configuration.passes`
(ruleset.py:77-97): takes the focus index, the flat grid, the wrapped
neighbor indices and the expected states (extra `*args` folded in). -/
def Vfunc : Type := ℕ → List Bool → List ℕ → List Bool → Bool

/-- A ruleset.py `Configuration` (ruleset.py:51-74): expected states and
pre-flattened offsets, plus the next state. -/
structure RsConfiguration where
  states : List Bool
  offsets : List ℤ
  next : RsNext

/-- Resolution of `next_state` as in ruleset.py:94-97: invoked as a
function if callable, else used directly. -/
def RsNext.resolve : RsNext → ℕ → List Bool → List ℕ → List Bool → Bool
  | .const b, _, _, _, _ => b
  | .fn f, i, g, idxs, sts => f i g idxs sts

/-- `Configuration.passes` (ruleset.py:77-97): computes the wrapped indices
`(f_index + offsets) % grid.size`, evaluates the validity function, and
returns the success flag together with the (always) resolved next state. -/
def RsConfiguration.passes (c : RsConfiguration) (fIndex : ℕ) (grid : List Bool)
    (vfunc : Vfunc) : Bool × Bool :=
  let indices := c.offsets.map (fun o => (((fIndex : ℤ) + o) % (grid.length : ℤ)).toNat)
  (vfunc fIndex grid indices c.states, c.next.resolve fIndex grid indices c.states)

/-- `Ruleset._matches` (ruleset.py:228-234):
`not np.count_nonzero(f_grid[indices] ^ states)` — the gathered cells must
equal the expected states exactly. -/
def Ruleset.matchesV : Vfunc := fun _ grid indices states =>
  (List.zipWith (fun i s => xor (grid.getD i false) s) indices states).all (fun b => b == false)

/-- `Ruleset.applyTo` (ruleset.py:193-225): configurations are scanned in
declaration order with the validity function selected by the ruleset's
method; the first passing configuration's resolved state is returned, and
if none passes the cell keeps its current value `grid.flat[f_index]`. -/
def Ruleset.applyTo (configurations : List RsConfiguration) (vfunc : Vfunc)
    (fIndex : ℕ) (grid : List Bool) : Bool :=
  match configurations with
  | [] => grid.getD fIndex false
  | c :: rest =>
    let pr := c.passes fIndex grid vfunc
    if pr.1 then pr.2 else Ruleset.applyTo rest vfunc fIndex grid

/-- `CAM.tick` (cam.py:65-78): `tmp = np.copy(self.master)`, then every
cell of `tmp` is assigned `rules.applyTo(i, self.master)` in index order,
and finally `self.master[:] = tmp`.  The rule argument reads the untouched
`grid` throughout; only the buffer being folded is written. -/
def CAM.tick (applyRule : ℕ → List Bool → Bool) (grid : List Bool) : List Bool :=
  (List.range grid.length).foldl (fun tmp i => tmp.set i (applyRule i grid)) grid

/-! ### The bitarray generation: configuration.py -/

/-- A configuration.py `Neighborhood` (configuration.py:23-31). -/
structure Neighborhood where
  total : ℕ
  index : ℕ
  neighbors : List Bool

/-- `Neighborhood.populate` (configuration.py:33-46): for each offset,
`f_index = plane.flatten(offset) + self.index` and the bit at
`f_index % len(plane.bits)` is appended.  `plane.flatten` may raise
(arity mismatch, empty storage), hence the `Option`. -/
def Neighborhood.populate (plane : Plane) (index : ℕ)
    (offsets : List (List ℤ)) : Option (List Bool) :=
  offsets.mapM (fun o =>
    (plane.flatten o).bind (fun f =>
      plane.bits.get? ((f + (index : ℤ)) % (plane.bits.length : ℤ)).toNat))

/-- `next_state` of a configuration.py `Configuration`
(configuration.py:201-212): a constant, or a callable of the plane and the
neighborhood (extra `*args` folded into the closure); the `try/except
TypeError` in `passes` realises exactly this dispatch. -/
inductive CfgNext where
  | const : Bool → CfgNext
  | fn : (Plane → Neighborhood → Bool) → CfgNext

/-- Resolution of configuration.py `next_state` (configuration.py:243-246). -/
def CfgNext.resolve : CfgNext → Plane → Neighborhood → Bool
  | .const b, _, _ => b
  | .fn f, p, nb => f p nb

/-- A configuration.py `Configuration` (configuration.py:201-226): parallel
lists of offsets and expected bits, plus the next state. -/
structure Configuration where
  offsets : List (List ℤ)
  sequence : List Bool
  next : CfgNext

/-- `Configuration.passes` (configuration.py:228-246): if the validity
function rejects, `(False, None)` is returned and `next_state` is never
resolved; otherwise `(True, resolved)`. -/
def Configuration.passes (c : Configuration) (plane : Plane) (nb : Neighborhood)
    (vfunc : Plane → Neighborhood → Bool) : Bool × Option Bool :=
  if vfunc plane nb then (true, some (c.next.resolve plane nb)) else (false, none)

/-- `Configuration.tolerates` (configuration.py:257-266): populate the
neighborhood, xor it against the expected sequence, and compare
`(len(sequence) - non_matches.count()) / len(sequence)` with the tolerance.
A division by zero (empty sequence) raises, hence `none`. -/
def Configuration.tolerates (c : Configuration) (plane : Plane) (index : ℕ)
    (tolerance : ℚ) : Option Bool :=
  (Neighborhood.populate plane index c.offsets).bind (fun neighbors =>
    if c.sequence.length = 0 then none
    else
      let nonMatches := (List.zipWith xor c.sequence neighbors).count true
      some (decide ((((c.sequence.length : ℚ) - (nonMatches : ℚ)) / (c.sequence.length : ℚ)) ≥ tolerance)))

/-- The actual cell value consulted by `Neighborhood.populate` for one
offset: the bit at `(flatten(offset) + index) % len(bits)` — the wrapped
neighbor position. -/
def actualAt (plane : Plane) (index : ℕ) (o : List ℤ) : Bool :=
  plane.bits.getD ((((flattenSum o plane.offsets) % (plane.bits.length : ℤ) + (index : ℤ)) %
    (plane.bits.length : ℤ)).toNat) false

/-- The number of `(offset, expected)` pairs of a configuration whose
expected bit equals the actual cell value at the wrapped neighbor position
(the quantity the tolerance claim speaks about). -/
def matchCount (c : Configuration) (plane : Plane) (index : ℕ) : ℕ :=
  ((c.offsets.zip c.sequence).filter
    (fun oe => oe.2 == actualAt plane index oe.1)).length

/-! ### Batched neighbor totals (configuration.py:74-134 / neighborhood.py:67-127) -/

/-- Python list/bitarray indexing, `bits[k]`: negative indices count from
the end, anything else out of `[-len, len)` raises `IndexError`. -/
def pyGet (bits : List Bool) (k : ℤ) : Option Bool :=
  if 0 ≤ k then bits.get? k.toNat
  else if 0 ≤ k + bits.length then bits.get? (k + bits.length).toNat
  else none

/-- The one-dimensional branch of `Neighborhood.get_totals`
(configuration.py:104-106): for every bit position `i`, the plain Python
sum of `plane.bits[i+j]` over the offsets — no modulo is taken, so a
positive offset past the right edge raises `IndexError` (`none`). -/
def Neighborhood.getTotals1D (bits : List Bool) (offsets : List ℤ) : Option (List ℕ) :=
  (List.range bits.length).mapM (fun i =>
    (offsets.mapM (fun j => pyGet bits ((i : ℤ) + j))).map
      (fun vs => (vs.map bitVal).sum))

/-- `int(sequence.to01())`: the decimal number whose digit string is the
bit sequence, most significant digit first. -/
def decVal (l : List Bool) : ℕ := l.foldl (fun a b => 10 * a + bitVal b) 0

/-- Decimal digits of `n`, least significant first, by repeated division;
the fuel argument makes the recursion structural (any fuel `≥ n` is exact). -/
def digitsRec : ℕ → ℕ → List ℕ
  | 0, _ => []
  | fuel + 1, n => if n = 0 then [] else n % 10 :: digitsRec fuel (n / 10)

/-- Decimal digits of `n`, least significant first, with `0` rendered as a
single digit — the digit list of Python `str(n)` read right to left. -/
def lsfDigits (n : ℕ) : List ℕ := if n = 0 then [0] else digitsRec n n

/-- `map(int, str(chunk).zfill(width))` (configuration.py:128): the decimal
digit string of the chunk, left-padded with zeros to the target width
(`zfill` never truncates, so a wider number keeps all its digits). -/
def paddedDigits (width chunk : ℕ) : List ℕ :=
  List.replicate (width - (lsfDigits chunk).length) 0 ++ (lsfDigits chunk).reverse

/-- `[lst[i:i+9] for i in range(0, len(lst), 9)]` (configuration.py:126):
consecutive chunks of at most nine elements; fuel again keeps the
recursion structural. -/
def chunksAux : ℕ → List ℕ → List (List ℕ)
  | 0, _ => []
  | fuel + 1, l => if l.isEmpty then [] else l.take 9 :: chunksAux fuel (l.drop 9)

/-- The chunks of nine of a list. -/
def chunks9 (l : List ℕ) : List (List ℕ) := chunksAux l.length l

/-- The accumulation loop of `Neighborhood.get_totals`
(configuration.py:122-129).  `totals` starts as the list `[0] * width`; the
first loop iteration pads the chunk's digit string to `len(totals) = width`
and rebinds `totals` to a lazy `map` object
(`totals = map(sum, zip(totals, padded_chunk))`), which the trailing
`list(totals)` forces.  A second iteration, however, calls
`len(totals)` on that `map` object, which in Python 3 raises
`TypeError: object of type 'map' has no len()` — so the loop only ever
completes with at most one chunk, i.e. at most nine offsets (`none`
otherwise).  `zip` truncates to the shorter list, exactly as
`map(sum, zip(totals, padded_chunk))` does. -/
def totalsOf (width : ℕ) (neighboring : List ℕ) : Option (List ℕ) :=
  match (chunks9 neighboring).map List.sum with
  | [] => some (List.replicate width 0)
  | [chunk] => some (List.zipWith (· + ·) (List.replicate width 0) (paddedDigits width chunk))
  | _ => none

/-- The multi-dimensional branch of `Neighborhood.get_totals`
(configuration.py:107-132), for a plane of dimension at least two.  Per
level and per offset: the adjacent level's sub-plane is
`plane[adj_level]` — the slice of width `plane.offsets[0]` starting at
`(adj_level * plane.offsets[0]) % len(plane.bits)` — the tail of the offset
is flattened inside that sub-plane, the sub-plane's bits are rotated by
that amount, and the rotation is read as a decimal number
(`int(sequence.to01())`, raising on an empty string).  `rowEntry` is this
per-offset body (configuration.py:115-120, plus the sub-plane construction
of plane.py:108-111); `getTotalsND` below runs it per level and per offset,
accumulates each level's totals digit-wise (`totalsOf`, raising on a
second chunk of nine) and concatenates them (`n_counts += list(totals)`).
An empty shape raises `IndexError` on `plane.shape[0]` at the `for level`
loop (and on `plane.offsets[0]`), hence the shape match. -/
def rowEntry (plane : Plane) (level : ℕ) (o : List ℤ) : Option ℕ :=
  match o with
  | [] => none
  | a :: rest =>
    let adjLevel : ℤ := (level : ℤ) + a
    let delta : ℤ := plane.offsets.headD 0
    let offIdx : ℤ := (adjLevel * delta) % (plane.bits.length : ℤ)
    let subBits := (plane.bits.drop offIdx.toNat).take delta.toNat
    (Plane.flatten ⟨plane.shape.tail, subBits⟩ rest).bind (fun subIndex =>
      let sequence := subBits.drop subIndex.toNat ++ subBits.take subIndex.toNat
      if sequence.isEmpty then none else some (decVal sequence))

def Neighborhood.getTotalsND (plane : Plane) (offsets : List (List ℤ)) : Option (List ℕ) :=
  match plane.shape with
  | [] => none
  | s0 :: _ =>
    ((List.range s0.toNat).mapM (fun level =>
      (offsets.mapM (rowEntry plane level)).bind
        (fun neighboring => totalsOf (plane.offsets.headD 0).toNat neighboring))).map
      List.flatten

/-- The bit sequence `rowEntry` reads on an `h × w` plane for the offset
`(a, b)` at a given level: the row `(level + a) mod h`, rotated left by
`b mod w` (a proof-layer description of the rotation, shown below to be
what `rowEntry` computes). -/
def mkSeq2D (h w : ℕ) (bits : List Bool) (level : ℕ) (a b : ℤ) : List Bool :=
  let rb := (bits.drop ((((level : ℤ) + a) % (h : ℤ)).toNat * w)).take w
  rb.drop (b % (w : ℤ)).toNat ++ rb.take (b % (w : ℤ)).toNat

/-- Modelled from the spec: the naive per-cell neighbor total
`sum(grid.get(i+o) for o in offsets)` of a one-dimensional grid — each
neighbor position taken modulo the grid length (toroidal wraparound). -/
def specTotal1D (bits : List Bool) (i : ℕ) (offsets : List ℤ) : ℕ :=
  (offsets.map (fun j => bitVal (bits.getD ((((i : ℤ) + j) % (bits.length : ℤ)).toNat) false))).sum

/-- Modelled from the spec: the naive per-component-wraparound neighbor
total of cell `(level, k)` of an `h × w` grid — each coordinate component
of `(level, k) + o` reduced modulo its own dimension. -/
def specTotal2D (h w : ℕ) (bits : List Bool) (offsets : List (List ℤ))
    (level k : ℕ) : ℕ :=
  (offsets.map (fun o => bitVal (bits.getD
    (((((level : ℤ) + o.headD 0) % (h : ℤ)).toNat) * w +
      ((((k : ℤ) + o.getD 1 0) % (w : ℤ)).toNat)) false))).sum

/-- Little-endian decimal value of a digit list: the number whose `j`-th
decimal digit (from the least significant end) is the `j`-th entry. -/
def ofD : List ℕ → ℕ
  | [] => 0
  | d :: ds => d + 10 * ofD ds

/-- The column count of a batch of rows: how many rows have bit `k` set. -/
def countAt (rows : List (List Bool)) (k : ℕ) : ℕ :=
  (rows.map (fun l => bitVal (l.getD k false))).sum

/-! ### Helper lemmas -/

theorem list_set_getD_self (l : List Bool) (i : ℕ) : l.set i (l.getD i false) = l := by
  apply List.ext_getElem?
  intro j
  by_cases h : j = i
  · subst h
    by_cases hi : j < l.length
    · simp [List.getElem?_set_self, hi, List.getD_eq_getElem?_getD, List.getElem?_eq_getElem hi]
    · simp [List.getElem?_set, hi, Nat.le_of_not_lt hi]
  · simp [List.getElem?_set_ne (Ne.symm h)]

theorem list_mapM_eq_some {α β : Type} (l : List α) (f : α → Option β) (g : α → β)
    (h : ∀ a ∈ l, f a = some (g a)) : l.mapM f = some (l.map g) := by
  induction l with
  | nil => rfl
  | cons x xs ih =>
    rw [List.mapM_cons, h x (by simp), ih (fun a ha => h a (by simp [ha]))]
    rfl

theorem foldl_set_length (f : ℕ → Bool) (L : List ℕ) (t : List Bool) :
    (L.foldl (fun t i => t.set i (f i)) t).length = t.length := by
  induction L generalizing t with
  | nil => rfl
  | cons x xs ih => simp [List.foldl_cons, ih]

theorem foldl_set_get? (f : ℕ → Bool) (n j : ℕ) (t : List Bool) (hj : j < n)
    (hlen : n ≤ t.length) :
    ((List.range n).foldl (fun t i => t.set i (f i)) t).get? j = some (f j) := by
  induction n generalizing j with
  | zero => omega
  | succ m ih =>
    rw [List.range_succ, List.foldl_append]
    by_cases hjm : j = m
    · subst hjm
      have hl : ((List.range j).foldl (fun t i => t.set i (f i)) t).length = t.length :=
        foldl_set_length f _ t
      simp only [List.foldl_cons, List.foldl_nil, List.get?_eq_getElem?]
      rw [List.getElem?_set_self (by omega)]
    · have hj' : j < m := by omega
      simp only [List.foldl_cons, List.foldl_nil, List.get?_eq_getElem?]
      rw [List.getElem?_set_ne (by omega)]
      rw [← List.get?_eq_getElem?]
      exact ih j hj' (by omega)

theorem foldl_set_self (g : List Bool) (L : List ℕ) :
    L.foldl (fun t i => t.set i (g.getD i false)) g = g := by
  induction L with
  | nil => rfl
  | cons x xs ih =>
    simp only [List.foldl_cons]
    rw [list_set_getD_self]
    exact ih

theorem applyTo_of_no_pass (configs : List RsConfiguration) (vfunc : Vfunc)
    (grid : List Bool) (i : ℕ)
    (h : ∀ c ∈ configs, (c.passes i grid vfunc).1 = false) :
    Ruleset.applyTo configs vfunc i grid = grid.getD i false := by
  induction configs with
  | nil => rfl
  | cons c cs ih =>
    unfold Ruleset.applyTo
    rw [if_neg (by rw [h c (by simp)]; exact Bool.false_ne_true)]
    exact ih (fun d hd => h d (by simp [hd]))

/-! ### C1 — wraparound of tuple reads -/

/-- Claim C1 counterexample: on the 2×2 plane with only bit `(0,0)` set,
reading `(0,0)` and reading `(0,0) + shape_1 · e_1 = (0,2)` give different
bits — the flat index is wrapped modulo the total cell count, which is not
per-component wraparound, so `get(c) = get(c + shape_i · e_i)` fails for
axis `i = 1`. -/
theorem per_component_wraparound_fails :
    Plane.getTuple counterPlane [0, 0] = some true ∧
    Plane.getTuple counterPlane [0, 2] = some false := by decide

/-- Claim C1 (amended): tuple reads wrap the flat row-major index modulo
the total cell count; consequently full-period wraparound does hold on
axis 0: `get((c0 + shape_0) :: ct) = get(c0 :: ct)` for any plane whose
bit count equals the product of its shape. -/
theorem plane_get_wraps_flat_axis0 (p : Plane) (c0 s0 : ℤ) (ct st : List ℤ)
    (hs : p.shape = s0 :: st) (hlen : (c0 :: ct).length = p.N)
    (hb : 0 < p.bits.length) (hprod : (p.bits.length : ℤ) = p.shape.prod) :
    p.getTuple ((c0 + s0) :: ct) = p.getTuple (c0 :: ct) := by
  unfold Plane.getTuple
  have hlen2 : ((c0 + s0) :: ct).length = p.N := by simpa using hlen
  rw [if_pos hlen2, if_pos hlen, if_neg (by omega), if_neg (by omega)]
  have hoff : p.offsets = st.prod :: offsetsOf st := by
    rw [Plane.offsets, hs]; rfl
  have hshape : (p.bits.length : ℤ) = s0 * st.prod := by
    rw [hprod, hs, List.prod_cons]
  rw [hoff]
  show p.bits.get? ((((c0 + s0) * st.prod + flattenSum ct (offsetsOf st)) %
      (p.bits.length : ℤ)).toNat) = _
  have hsplit : (c0 + s0) * st.prod + flattenSum ct (offsetsOf st) =
      (c0 * st.prod + flattenSum ct (offsetsOf st)) + (s0 * st.prod) * 1 := by ring
  rw [hsplit, hshape, Int.add_mul_emod_self_left]
  rfl

/-- Witness for the amended C1 theorem at the concrete plane of shape
`(2,3)`: bumping the first coordinate by the first dimension is invisible. -/
theorem plane_get_wraps_flat_axis0_witness :
    Plane.getTuple ⟨[2, 3], [true, false, true, false, false, true]⟩ [(1 : ℤ) + 2, 2] =
    Plane.getTuple ⟨[2, 3], [true, false, true, false, false, true]⟩ [1, 2] :=
  plane_get_wraps_flat_axis0 _ 1 2 [2] [3] rfl (by decide) (by decide) (by decide)

/-! ### C9 — grid creation -/

/-- Claim C9 counterexample: creating a plane with the non-positive shape
`(0,)` does not fail — no `InvalidShape` (or any other) error exists; the
construction silently yields a plane with an empty bit store. -/
theorem plane_create_silent : planeInit [(0 : ℤ)] none = Except.ok ⟨[0], []⟩ := rfl

/-- Claim C9 (amended): creation from a shape alone always succeeds; for a
shape of positive dimensions the resulting plane has exactly
`product(shape)` cells, all false.  (Non-positive dimensions are not
rejected: the bit store is just `max(product, 0)` zeros.) -/
theorem plane_create_all_false (shape : List ℤ) (hpos : ∀ d ∈ shape, 0 < d) :
    ∃ p : Plane, planeInit shape none = .ok p ∧
      (p.bits.length : ℤ) = shape.prod ∧ ∀ b ∈ p.bits, b = false := by
  refine ⟨⟨shape, List.replicate shape.prod.toNat false⟩, rfl, ?_, ?_⟩
  · have hp : 0 < shape.prod := List.prod_pos hpos
    simp [Int.toNat_of_nonneg hp.le]
  · intro b hb
    exact List.eq_of_mem_replicate hb

/-- Witness for the amended C9 theorem at shape `(2,3)`. -/
theorem plane_create_all_false_witness :
    ∃ p : Plane, planeInit [(2 : ℤ), 3] none = .ok p ∧
      (p.bits.length : ℤ) = ([(2 : ℤ), 3] : List ℤ).prod ∧ ∀ b ∈ p.bits, b = false :=
  plane_create_all_false [2, 3] (by decide)

/-! ### C10 — totality of full-arity tuple access -/

/-- Claim C10: on a plane with a nonempty bit store, full-arity tuple reads
and writes never raise: the flat offset is reduced modulo the total bit
count, so it always lands inside the storage.  Writing also preserves the
cell count. -/
theorem tuple_access_total (p : Plane) (index : List ℤ) (value : Bool)
    (harity : index.length = p.N) (hb : 0 < p.bits.length) :
    (∃ b, p.getTuple index = some b) ∧
    (∃ q, p.setTuple index value = some q ∧ q.bits.length = p.bits.length) := by
  have h0 : 0 ≤ flattenSum index p.offsets % (p.bits.length : ℤ) :=
    Int.emod_nonneg _ (by exact_mod_cast hb.ne')
  have h1 : flattenSum index p.offsets % (p.bits.length : ℤ) < p.bits.length :=
    Int.emod_lt_of_pos _ (by exact_mod_cast hb)
  have h2 : (flattenSum index p.offsets % (p.bits.length : ℤ)).toNat < p.bits.length := by
    omega
  constructor
  · unfold Plane.getTuple
    rw [if_pos harity, if_neg (by omega)]
    exact ⟨_, List.get?_eq_get h2⟩
  · unfold Plane.setTuple
    rw [if_pos harity, if_neg (by omega)]
    simp only [if_pos h2]
    exact ⟨_, rfl, List.length_set p.bits _ value⟩

/-- Witness for C10 at a concrete `(2,3)` plane with a far-out-of-range
tuple (negative first component, huge second component). -/
theorem tuple_access_total_witness :
    (∃ b, Plane.getTuple ⟨[2, 3], [true, false, true, false, false, true]⟩ [-7, 100] = some b) ∧
    (∃ q, Plane.setTuple ⟨[2, 3], [true, false, true, false, false, true]⟩ [-7, 100] true = some q ∧
      q.bits.length = (Plane.mk [2, 3] [true, false, true, false, false, true]).bits.length) :=
  tuple_access_total _ [-7, 100] true (by decide) (by decide)

/-! ### C3 — ticks are simultaneous updates -/

/-- Claim C3: a tick is a simultaneous update.  `CAM.tick` folds the new
states into a separate buffer while every call of `Ruleset.applyTo`
receives the untouched pre-tick grid, so after the commit every cell `i`
holds exactly the ruleset applied to `i` on the old grid, and the grid
keeps its size.  The validity function stands for the method dispatch with
its extra arguments. -/
theorem tick_simultaneous_update (configs : List RsConfiguration) (vfunc : Vfunc)
    (grid : List Bool) (i : ℕ) (hi : i < grid.length) :
    (CAM.tick (Ruleset.applyTo configs vfunc) grid).length = grid.length ∧
    (CAM.tick (Ruleset.applyTo configs vfunc) grid).get? i =
      some (Ruleset.applyTo configs vfunc i grid) := by
  unfold CAM.tick
  exact ⟨foldl_set_length _ _ _, foldl_set_get? _ _ _ _ hi le_rfl⟩

/-- Witness for C3 on a concrete two-cell grid with one configuration. -/
theorem tick_simultaneous_update_witness :
    (CAM.tick (Ruleset.applyTo [⟨[], [], RsNext.const true⟩] Ruleset.matchesV) [true, false]).length =
      ([true, false] : List Bool).length ∧
    (CAM.tick (Ruleset.applyTo [⟨[], [], RsNext.const true⟩] Ruleset.matchesV) [true, false]).get? 1 =
      some (Ruleset.applyTo [⟨[], [], RsNext.const true⟩] Ruleset.matchesV 1 [true, false]) :=
  tick_simultaneous_update _ _ _ 1 (by decide)

/-! ### C4 — first match wins -/

/-- Claim C4: configurations are evaluated in declaration order and the
first passing one decides the cell — whenever every configuration before
`c` fails and `c` passes, the ruleset's answer is `c`'s resolved state,
whatever comes after `c` (in particular when later configurations would
also pass). -/
theorem first_match_wins (pre post : List RsConfiguration) (c : RsConfiguration)
    (vfunc : Vfunc) (fIndex : ℕ) (grid : List Bool)
    (hpre : ∀ d ∈ pre, (d.passes fIndex grid vfunc).1 = false)
    (hc : (c.passes fIndex grid vfunc).1 = true) :
    Ruleset.applyTo (pre ++ c :: post) vfunc fIndex grid =
      (c.passes fIndex grid vfunc).2 := by
  induction pre with
  | nil =>
    rw [List.nil_append]
    unfold Ruleset.applyTo
    rw [if_pos hc]
  | cons d ds ih =>
    show Ruleset.applyTo (d :: (ds ++ c :: post)) vfunc fIndex grid = _
    unfold Ruleset.applyTo
    rw [if_neg (by rw [hpre d (by simp)]; exact Bool.false_ne_true)]
    exact ih (fun e he => hpre e (by simp [he]))

/-- Witness for C4: two empty-offset configurations under the exact-match
discipline both pass on the one-cell grid; the ruleset answers with the
first one's state (`false`), not the second's (`true`). -/
theorem first_match_wins_witness :
    Ruleset.applyTo ([] ++ ⟨[], [], RsNext.const false⟩ :: [⟨[], [], RsNext.const true⟩])
      Ruleset.matchesV 0 [true] =
    (RsConfiguration.passes ⟨[], [], RsNext.const false⟩ 0 [true] Ruleset.matchesV).2 :=
  first_match_wins [] [⟨[], [], RsNext.const true⟩] ⟨[], [], RsNext.const false⟩
    Ruleset.matchesV 0 [true] (by intro d hd; cases hd) (by decide)

/-! ### C5 — identity default -/

/-- Claim C5: when no configuration passes, a cell keeps its current value,
and therefore a tick of such a ruleset — in particular of the empty
ruleset, for which the hypothesis is vacuous — leaves the whole grid
unchanged. -/
theorem no_pass_identity (configs : List RsConfiguration) (vfunc : Vfunc)
    (grid : List Bool) (fIndex : ℕ)
    (h : ∀ i : ℕ, ∀ c ∈ configs, (c.passes i grid vfunc).1 = false) :
    Ruleset.applyTo configs vfunc fIndex grid = grid.getD fIndex false ∧
    CAM.tick (Ruleset.applyTo configs vfunc) grid = grid := by
  refine ⟨applyTo_of_no_pass configs vfunc grid fIndex (h fIndex), ?_⟩
  unfold CAM.tick
  have hfun : (fun (tmp : List Bool) i => tmp.set i (Ruleset.applyTo configs vfunc i grid)) =
      (fun (tmp : List Bool) i => tmp.set i (grid.getD i false)) := by
    funext tmp i
    rw [applyTo_of_no_pass configs vfunc grid i (h i)]
  rw [hfun, foldl_set_self]

/-- Witness for C5: the zero-configuration ruleset leaves a concrete
three-cell grid unchanged. -/
theorem no_pass_identity_witness :
    Ruleset.applyTo [] Ruleset.matchesV 1 [true, false, true] =
      ([true, false, true] : List Bool).getD 1 false ∧
    CAM.tick (Ruleset.applyTo [] Ruleset.matchesV) [true, false, true] = [true, false, true] :=
  no_pass_identity [] Ruleset.matchesV [true, false, true] 1
    (by intro i c hc; cases hc)

/-! ### C7 — pass/fail shape of Configuration.passes -/

/-- Claim C7: `Configuration.passes` returns the validity verdict paired
with the resolved next state exactly when the verdict is positive and with
`None` otherwise — the resolution (a call for a function-valued
`next_state`, the value itself for a constant) happens only on success. -/
theorem passes_resolution (c : Configuration) (p : Plane) (nb : Neighborhood)
    (vfunc : Plane → Neighborhood → Bool) (b : Bool) (f : Plane → Neighborhood → Bool) :
    c.passes p nb vfunc =
      (vfunc p nb, if vfunc p nb then some (c.next.resolve p nb) else none) ∧
    (CfgNext.const b).resolve p nb = b ∧
    (CfgNext.fn f).resolve p nb = f p nb := by
  refine ⟨?_, rfl, rfl⟩
  unfold Configuration.passes
  cases h : vfunc p nb <;> simp [h]

/-! ### C8 — neighborhood cardinalities -/

theorem tuplesOf_succ (n : ℕ) : tuplesOf (n + 1) =
    (tuplesOf n).map (fun t => (-1 : ℤ) :: t) ++
      ((tuplesOf n).map (fun t => (0 : ℤ) :: t) ++
        ((tuplesOf n).map (fun t => (1 : ℤ) :: t) ++ [])) := rfl

theorem tuplesOf_length (n : ℕ) : (tuplesOf n).length = 3 ^ n := by
  induction n with
  | zero => rfl
  | succ m ih =>
    rw [tuplesOf_succ]
    simp only [List.length_append, List.length_map, List.length_nil, ih]
    have : 3 ^ (m + 1) = 3 ^ m * 3 := pow_succ 3 m
    omega

theorem mem_tuplesOf (n : ℕ) (t : List ℤ) :
    t ∈ tuplesOf n ↔ t.length = n ∧ ∀ z ∈ t, z = -1 ∨ z = 0 ∨ z = 1 := by
  induction n generalizing t with
  | zero =>
    simp only [tuplesOf, List.mem_singleton]
    constructor
    · rintro rfl; simp
    · rintro ⟨hlen, _⟩; exact List.length_eq_zero.mp hlen
  | succ m ih =>
    rw [tuplesOf_succ]
    simp only [List.append_nil, List.mem_append, List.mem_map]
    constructor
    · rintro (⟨t', ht', rfl⟩ | ⟨t', ht', rfl⟩ | ⟨t', ht', rfl⟩) <;>
        obtain ⟨hl, hz⟩ := (ih t').mp ht' <;>
        refine ⟨by simp [hl], ?_⟩ <;>
        · intro z hz'
          rcases List.mem_cons.mp hz' with h | h
          · subst h; simp
          · exact hz z h
    · rintro ⟨hlen, hmem⟩
      match t with
      | z :: rest =>
        have hrest : rest ∈ tuplesOf m :=
          (ih rest).mpr ⟨by simpa using hlen, fun w hw => hmem w (by simp [hw])⟩
        rcases hmem z (by simp) with h | h | h
        · exact Or.inl ⟨rest, hrest, by rw [h]⟩
        · exact Or.inr (Or.inl ⟨rest, hrest, by rw [h]⟩)
        · exact Or.inr (Or.inr ⟨rest, hrest, by rw [h]⟩)

theorem tuplesOf_nodup (n : ℕ) : (tuplesOf n).Nodup := by
  induction n with
  | zero => simp [tuplesOf]
  | succ m ih =>
    rw [tuplesOf_succ]
    have hm : ∀ c : ℤ, ((tuplesOf m).map (fun t => c :: t)).Nodup :=
      fun c => ih.map (fun a b h => by injection h)
    have hd : ∀ c d : ℤ, c ≠ d →
        List.Disjoint ((tuplesOf m).map (fun t => c :: t))
          ((tuplesOf m).map (fun t => d :: t)) := by
      intro c d hcd
      rw [List.disjoint_left]
      intro a ha hb
      obtain ⟨t, _, rfl⟩ := List.mem_map.mp ha
      obtain ⟨t', _, he⟩ := List.mem_map.mp hb
      exact hcd (by injection he with h1 _; exact h1.symm)
    rw [List.append_nil]
    refine List.Nodup.append (hm (-1))
      (List.Nodup.append (hm 0) (hm 1) (hd 0 1 (by decide))) ?_
    rw [List.disjoint_append_right]
    exact ⟨hd (-1) 0 (by decide), hd (-1) 1 (by decide)⟩

theorem moore_filter_length (n : ℕ) :
    ((tuplesOf n).filter (fun t => t.any (fun z => !(z == 0)))).length = 3 ^ n - 1 := by
  induction n with
  | zero => rfl
  | succ m ih =>
    rw [tuplesOf_succ, List.append_nil, List.filter_append, List.filter_append,
      List.filter_map, List.filter_map, List.filter_map]
    have hside : ∀ c : ℤ, (!(c == 0)) = true →
        (List.filter ((fun t => t.any fun z => !(z == 0)) ∘ fun t => c :: t) (tuplesOf m)) =
          tuplesOf m := by
      intro c hc
      have : ((fun t => t.any fun z => !(z == 0)) ∘ fun t => c :: t) = fun _ => true := by
        funext t
        simp [Function.comp, List.any_cons, hc]
      rw [this, List.filter_true]
    have hzero : (List.filter ((fun t => t.any fun z => !(z == 0)) ∘ fun t => (0 : ℤ) :: t)
        (tuplesOf m)) = (tuplesOf m).filter (fun t => t.any fun z => !(z == 0)) := by
      apply List.filter_congr
      intro t _
      simp [Function.comp, List.any_cons]
    rw [hside (-1) (by decide), hside 1 (by decide), hzero]
    simp only [List.length_append, List.length_map, tuplesOf_length, ih]
    have h1 : 1 ≤ 3 ^ m := Nat.one_le_pow m 3 (by omega)
    have h2 : 3 ^ (m + 1) = 3 ^ m * 3 := pow_succ 3 m
    omega

/-- Claim C8: on a shape of dimension `N ≥ 1`, the Moore generator yields
exactly `3^N - 1` distinct offsets — all tuples over `{-1,0,1}` of arity
`N` except the zero tuple — and the von Neumann generator yields exactly
`2N` distinct offsets — `±1` on one axis, zero elsewhere. -/
theorem generator_cardinalities (shape : List ℤ) (hn : 1 ≤ shape.length) :
    (Configuration.moore shape).length = 3 ^ shape.length - 1 ∧
    (Configuration.moore shape).Nodup ∧
    (∀ t, t ∈ Configuration.moore shape ↔ t.length = shape.length ∧
      (∀ z ∈ t, z = -1 ∨ z = 0 ∨ z = 1) ∧ t ≠ List.replicate shape.length 0) ∧
    (Configuration.neumann shape).length = 2 * shape.length ∧
    (Configuration.neumann shape).Nodup ∧
    (∀ t, t ∈ Configuration.neumann shape ↔ ∃ i < shape.length, ∃ v : ℤ,
      (v = -1 ∨ v = 1) ∧ t = (List.replicate shape.length (0 : ℤ)).set i v) := by
  set n := shape.length with hn_def
  have hgs : ∀ (i : ℕ) (v : ℤ), i < n → ((List.replicate n (0 : ℤ)).set i v)[i]? = some v := by
    intro i v h
    rw [List.getElem?_set_self (by simpa using h)]
  have hgn : ∀ (i j : ℕ) (v : ℤ), i ≠ j → j < n →
      ((List.replicate n (0 : ℤ)).set i v)[j]? = some 0 := by
    intro i j v hne h
    rw [List.getElem?_set_ne hne]
    simp [List.getElem?_replicate, h]
  have hinj : ∀ (i j : ℕ) (v w : ℤ), i < n → j < n → v ≠ 0 →
      (List.replicate n (0 : ℤ)).set i v = (List.replicate n (0 : ℤ)).set j w →
      i = j ∧ v = w := by
    intro i j v w hi hj hv he
    by_cases hij : i = j
    · subst hij
      have := (hgs i v hi).symm.trans (by rw [he, hgs i w hi])
      exact ⟨rfl, by injection this⟩
    · have := (hgs i v hi).symm.trans (by rw [he, hgn j i w (Ne.symm hij) hi])
      exact absurd (by injection this) hv
  refine ⟨moore_filter_length n, ?_, ?_, ?_, ?_, ?_⟩
  · exact (tuplesOf_nodup n).filter _
  · intro t
    unfold Configuration.moore
    rw [List.mem_filter, mem_tuplesOf]
    constructor
    · rintro ⟨⟨hlen, hz⟩, hany⟩
      refine ⟨hlen, hz, ?_⟩
      rintro rfl
      simp at hany
    · rintro ⟨hlen, hz, hnz⟩
      refine ⟨⟨hlen, hz⟩, ?_⟩
      by_contra hany
      apply hnz
      rw [List.eq_replicate_iff]
      refine ⟨hlen, ?_⟩
      intro b hb
      by_contra hb0
      exact hany (List.any_eq_true.mpr ⟨b, hb, by simpa using hb0⟩)
  · unfold Configuration.neumann
    rw [← hn_def]
    simp [List.length_flatMap, Function.comp_def, List.map_const', List.sum_replicate,
      smul_eq_mul]
    omega
  · unfold Configuration.neumann
    rw [← hn_def, List.nodup_flatMap]
    constructor
    · intro i hi
      rw [List.mem_range] at hi
      refine List.nodup_cons.mpr ⟨?_, List.nodup_singleton _⟩
      rw [List.mem_singleton]
      intro he
      have := (hgs i (-1) hi).symm.trans (by rw [he, hgs i 1 hi])
      exact absurd (by injection this) (by decide)
    · rw [List.pairwise_iff_get]
      intro a b hab
      simp only [Function.onFun]
      rw [List.disjoint_left]
      intro x hxa hxb
      have hval : ∀ i : Fin (List.range n).length, (List.range n).get i = (i : ℕ) := by
        intro i
        rw [List.get_eq_getElem, List.getElem_range]
      have hia : (List.range n).get a < n := by
        rw [hval a]
        have := a.isLt
        simpa using this
      have hib : (List.range n).get b < n := by
        rw [hval b]
        have := b.isLt
        simpa using this
      have hne : (List.range n).get a ≠ (List.range n).get b := by
        rw [hval a, hval b]
        intro he
        have hlt : (a : ℕ) < (b : ℕ) := hab
        omega
      have hx1 : x = (List.replicate n (0 : ℤ)).set ((List.range n).get a) (-1) ∨
          x = (List.replicate n (0 : ℤ)).set ((List.range n).get a) 1 := by
        rcases List.mem_cons.mp hxa with h | h
        · exact Or.inl h
        · exact Or.inr (List.mem_singleton.mp h)
      have hx2 : x = (List.replicate n (0 : ℤ)).set ((List.range n).get b) (-1) ∨
          x = (List.replicate n (0 : ℤ)).set ((List.range n).get b) 1 := by
        rcases List.mem_cons.mp hxb with h | h
        · exact Or.inl h
        · exact Or.inr (List.mem_singleton.mp h)
      rcases hx1 with rfl | rfl <;> rcases hx2 with h2 | h2 <;>
        exact hne (hinj _ _ _ _ hia hib (by decide) h2).1
  · intro t
    unfold Configuration.neumann
    rw [← hn_def]
    rw [List.mem_flatMap]
    constructor
    · rintro ⟨i, hi, ht⟩
      rw [List.mem_range] at hi
      rcases List.mem_cons.mp ht with h | h
      · exact ⟨i, hi, -1, Or.inl rfl, h⟩
      · rw [List.mem_singleton] at h
        exact ⟨i, hi, 1, Or.inr rfl, h⟩
    · rintro ⟨i, hi, v, hv, rfl⟩
      refine ⟨i, List.mem_range.mpr hi, ?_⟩
      rcases hv with rfl | rfl
      · exact List.mem_cons_self _ _
      · simp

/-- Witness for C8 at the concrete 2-dimensional shape `(10, 10)`. -/
theorem generator_cardinalities_witness :
    (Configuration.moore [(10 : ℤ), 10]).length = 3 ^ ([(10 : ℤ), 10] : List ℤ).length - 1 ∧
    (Configuration.moore [(10 : ℤ), 10]).Nodup ∧
    (∀ t, t ∈ Configuration.moore [(10 : ℤ), 10] ↔ t.length = ([(10 : ℤ), 10] : List ℤ).length ∧
      (∀ z ∈ t, z = -1 ∨ z = 0 ∨ z = 1) ∧ t ≠ List.replicate ([(10 : ℤ), 10] : List ℤ).length 0) ∧
    (Configuration.neumann [(10 : ℤ), 10]).length = 2 * ([(10 : ℤ), 10] : List ℤ).length ∧
    (Configuration.neumann [(10 : ℤ), 10]).Nodup ∧
    (∀ t, t ∈ Configuration.neumann [(10 : ℤ), 10] ↔ ∃ i < ([(10 : ℤ), 10] : List ℤ).length,
      ∃ v : ℤ, (v = -1 ∨ v = 1) ∧
        t = (List.replicate ([(10 : ℤ), 10] : List ℤ).length (0 : ℤ)).set i v) :=
  generator_cardinalities [10, 10] (by decide)

/-! ### C6 — the tolerance test -/

theorem populate_eq_map (plane : Plane) (index : ℕ) (offsets : List (List ℤ))
    (harity : ∀ o ∈ offsets, o.length = plane.N) (hb : 0 < plane.bits.length) :
    Neighborhood.populate plane index offsets =
      some (offsets.map (actualAt plane index)) := by
  apply list_mapM_eq_some
  intro o ho
  unfold Plane.flatten
  rw [if_pos (harity o ho), if_neg (by omega)]
  rw [Option.some_bind]
  have h0 : 0 ≤ (flattenSum o plane.offsets % (plane.bits.length : ℤ) + (index : ℤ)) %
      (plane.bits.length : ℤ) := Int.emod_nonneg _ (by exact_mod_cast hb.ne')
  have h1 : (flattenSum o plane.offsets % (plane.bits.length : ℤ) + (index : ℤ)) %
      (plane.bits.length : ℤ) < plane.bits.length := Int.emod_lt_of_pos _ (by exact_mod_cast hb)
  have h2 : ((flattenSum o plane.offsets % (plane.bits.length : ℤ) + (index : ℤ)) %
      (plane.bits.length : ℤ)).toNat < plane.bits.length := by omega
  unfold actualAt
  rw [List.get?_eq_getElem?, List.getElem?_eq_getElem h2,
    List.getD_eq_getElem?_getD, List.getElem?_eq_getElem h2]
  rfl

theorem zip_xor_count (act : List ℤ → Bool) (os : List (List ℤ)) :
    ∀ sq : List Bool, sq.length = os.length →
    (List.zipWith xor sq (os.map act)).count true +
      ((os.zip sq).filter (fun oe => oe.2 == act oe.1)).length = os.length := by
  induction os with
  | nil => intro sq h; simp
  | cons o os ih =>
    intro sq h
    match sq with
    | s :: sq' =>
      have h' : sq'.length = os.length := by simpa using h
      have htail := ih sq' h'
      simp only [List.map_cons, List.zipWith_cons_cons, List.zip_cons_cons, List.filter_cons,
        List.length_cons]
      cases hs : s <;> cases ha : act o <;>
        simp [List.count_cons] <;> omega

/-- Claim C6: on a nonempty offset set of size `k`, the tolerance test of
`configuration.py` answers true exactly when `m / k ≥ tolerance`, where `m`
counts the `(offset, expected)` pairs whose expected bit equals the actual
cell value at the wrapped neighbor position — the ratio is over the
configuration's own offset count and counts matches. -/
theorem tolerates_match_ratio (c : Configuration) (p : Plane) (index : ℕ) (t : ℚ)
    (hne : c.offsets ≠ []) (hlen : c.sequence.length = c.offsets.length)
    (harity : ∀ o ∈ c.offsets, o.length = p.N) (hb : 0 < p.bits.length) :
    c.tolerates p index t =
      some (decide ((matchCount c p index : ℚ) / (c.offsets.length : ℚ) ≥ t)) := by
  unfold Configuration.tolerates
  rw [populate_eq_map p index c.offsets harity hb, Option.some_bind]
  have hk : 0 < c.offsets.length := List.length_pos.mpr hne
  rw [if_neg (by omega)]
  show some (decide (((c.sequence.length : ℚ) -
      (((List.zipWith xor c.sequence (c.offsets.map (actualAt p index))).count true : ℕ) : ℚ)) /
        (c.sequence.length : ℚ) ≥ t)) = _
  congr 1
  rw [decide_eq_decide]
  have hcount := zip_xor_count (actualAt p index) c.offsets c.sequence hlen
  set nm := (List.zipWith xor c.sequence (c.offsets.map (actualAt p index))).count true with hnm
  have hmc : nm + matchCount c p index = c.offsets.length := hcount
  have hcast : (c.sequence.length : ℚ) - (nm : ℚ) = (matchCount c p index : ℚ) := by
    have h1 : (c.sequence.length : ℚ) = (c.offsets.length : ℚ) := by exact_mod_cast hlen
    have h2 : (nm : ℚ) + (matchCount c p index : ℚ) = (c.offsets.length : ℚ) := by
      exact_mod_cast hmc
    linarith
  rw [hcast]
  have h1 : (c.sequence.length : ℚ) = (c.offsets.length : ℚ) := by exact_mod_cast hlen
  rw [h1]

/-- Witness for C6: a two-offset configuration on a four-cell line, with
one matching and one mismatching pair, at tolerance one half. -/
theorem tolerates_match_ratio_witness :
    Configuration.tolerates ⟨[[1], [2]], [true, false], CfgNext.const true⟩
      ⟨[4], [true, false, false, true]⟩ 0 (1 / 2) =
    some (decide ((matchCount ⟨[[1], [2]], [true, false], CfgNext.const true⟩
      ⟨[4], [true, false, false, true]⟩ 0 : ℚ) /
        (([[1], [2]] : List (List ℤ)).length : ℚ) ≥ (1 / 2 : ℚ))) :=
  tolerates_match_ratio _ _ 0 (1 / 2) (by decide) (by decide) (by decide) (by decide)

/-! ### C2 — digit arithmetic of the batched totals -/

theorem ofD_lt (cs : List ℕ) (h : ∀ d ∈ cs, d < 10) : ofD cs < 10 ^ cs.length := by
  induction cs with
  | nil => simp [ofD]
  | cons d ds ih =>
    have hd := h d (by simp)
    have ht := ih (fun e he => h e (by simp [he]))
    simp only [ofD, List.length_cons, pow_succ]
    omega

theorem ofD_extract (cs : List ℕ) (h : ∀ d ∈ cs, d < 10) (j : ℕ) :
    ofD cs / 10 ^ j % 10 = cs.getD j 0 := by
  induction cs generalizing j with
  | nil => simp [ofD]
  | cons d ds ih =>
    have hd := h d (by simp)
    match j with
    | 0 => simp only [ofD, pow_zero, Nat.div_one, List.getD_cons_zero]; omega
    | j + 1 =>
      have h10 : (10 : ℕ) ^ (j + 1) = 10 * 10 ^ j := by ring
      rw [h10, ← Nat.div_div_eq_div_mul]
      have hdiv : (d + 10 * ofD ds) / 10 = ofD ds := by omega
      rw [show ofD (d :: ds) = d + 10 * ofD ds from rfl, hdiv, List.getD_cons_succ]
      exact ih (fun e he => h e (by simp [he])) j

theorem ofD_zipWith_add (xs ys : List ℕ) (h : xs.length = ys.length) :
    ofD (List.zipWith (· + ·) xs ys) = ofD xs + ofD ys := by
  induction xs generalizing ys with
  | nil =>
    have : ys = [] := List.length_eq_zero.mp (by simpa using h.symm)
    subst this
    simp [ofD]
  | cons x xs ih =>
    match ys with
    | y :: ys =>
      have h' : xs.length = ys.length := by simpa using h
      simp only [List.zipWith_cons_cons, ofD, ih ys h']
      ring

theorem digitsRec_length (fuel : ℕ) : ∀ n w : ℕ, n ≤ fuel → n < 10 ^ w →
    (digitsRec fuel n).length ≤ w := by
  induction fuel with
  | zero =>
    intro n w hn _
    have : n = 0 := by omega
    subst this
    simp [digitsRec]
  | succ f ih =>
    intro n w hn hw
    by_cases h0 : n = 0
    · subst h0; simp [digitsRec]
    · rw [digitsRec, if_neg h0]
      match w with
      | 0 => simp at hw; omega
      | v + 1 =>
        have h10 : (10 : ℕ) ^ (v + 1) = 10 * 10 ^ v := by ring
        have hdiv : n / 10 < 10 ^ v := by omega
        have hfuel : n / 10 ≤ f := by omega
        simpa using ih (n / 10) v hfuel hdiv

theorem digitsRec_lt (fuel : ℕ) : ∀ n : ℕ, n ≤ fuel → n < 10 ^ (digitsRec fuel n).length := by
  induction fuel with
  | zero =>
    intro n hn
    have : n = 0 := by omega
    subst this
    simp [digitsRec]
  | succ f ih =>
    intro n hn
    by_cases h0 : n = 0
    · subst h0; simp [digitsRec]
    · rw [digitsRec, if_neg h0]
      have := ih (n / 10) (by omega)
      simp only [List.length_cons, pow_succ]
      omega

theorem digitsRec_getD (fuel : ℕ) : ∀ n j : ℕ, n ≤ fuel →
    (digitsRec fuel n).getD j 0 = n / 10 ^ j % 10 := by
  induction fuel with
  | zero =>
    intro n j hn
    have : n = 0 := by omega
    subst this
    simp [digitsRec]
  | succ f ih =>
    intro n j hn
    by_cases h0 : n = 0
    · subst h0; simp [digitsRec]
    · rw [digitsRec, if_neg h0]
      match j with
      | 0 => simp
      | j + 1 =>
        have h10 : (10 : ℕ) ^ (j + 1) = 10 * 10 ^ j := by ring
        rw [List.getD_cons_succ, ih (n / 10) j (by omega), h10, ← Nat.div_div_eq_div_mul]

theorem lsfDigits_length (n w : ℕ) (hw : 1 ≤ w) (h : n < 10 ^ w) :
    (lsfDigits n).length ≤ w := by
  unfold lsfDigits
  by_cases h0 : n = 0
  · simp [h0, hw]
  · rw [if_neg h0]
    exact digitsRec_length n n w le_rfl h

theorem lsfDigits_lt (n : ℕ) : n < 10 ^ (lsfDigits n).length := by
  unfold lsfDigits
  by_cases h0 : n = 0
  · simp [h0]
  · rw [if_neg h0]
    exact digitsRec_lt n n le_rfl

theorem lsfDigits_getD (n j : ℕ) : (lsfDigits n).getD j 0 = n / 10 ^ j % 10 := by
  unfold lsfDigits
  by_cases h0 : n = 0
  · subst h0
    match j with
    | 0 => simp
    | j + 1 => simp
  · rw [if_neg h0]
    exact digitsRec_getD n n j le_rfl

theorem getD_append_lt (l1 l2 : List ℕ) (n : ℕ) (h : n < l1.length) :
    (l1 ++ l2).getD n 0 = l1.getD n 0 := by
  rw [List.getD_eq_getElem?_getD, List.getD_eq_getElem?_getD, List.getElem?_append_left h]

theorem getD_append_ge (l1 l2 : List ℕ) (n : ℕ) (h : l1.length ≤ n) :
    (l1 ++ l2).getD n 0 = l2.getD (n - l1.length) 0 := by
  rw [List.getD_eq_getElem?_getD, List.getD_eq_getElem?_getD, List.getElem?_append_right h]

theorem getD_replicate_zero (m n : ℕ) : (List.replicate m (0 : ℕ)).getD n 0 = 0 := by
  rw [List.getD_eq_getElem?_getD, List.getElem?_replicate]
  split <;> simp

theorem getD_reverse (cs : List ℕ) (i : ℕ) (h : i < cs.length) :
    cs.reverse.getD i 0 = cs.getD (cs.length - 1 - i) 0 := by
  rw [List.getD_eq_getElem?_getD, List.getD_eq_getElem?_getD,
    List.getElem?_eq_getElem (by simpa using h),
    List.getElem?_eq_getElem (by omega)]
  rw [List.getElem_reverse]

theorem paddedDigits_length (w n : ℕ) (hw : 1 ≤ w) (h : n < 10 ^ w) :
    (paddedDigits w n).length = w := by
  unfold paddedDigits
  have := lsfDigits_length n w hw h
  simp only [List.length_append, List.length_replicate, List.length_reverse]
  omega

theorem paddedDigits_getD (w n : ℕ) (hw : 1 ≤ w) (h : n < 10 ^ w) (k : ℕ) (hk : k < w) :
    (paddedDigits w n).getD k 0 = n / 10 ^ (w - 1 - k) % 10 := by
  unfold paddedDigits
  have hL : (lsfDigits n).length ≤ w := lsfDigits_length n w hw h
  by_cases hcase : k < w - (lsfDigits n).length
  · rw [getD_append_lt _ _ _ (by simpa using hcase), getD_replicate_zero]
    have hlt : n < 10 ^ (w - 1 - k) := by
      refine lt_of_lt_of_le (lsfDigits_lt n) (Nat.pow_le_pow_right (by norm_num) ?_)
      omega
    rw [Nat.div_eq_of_lt hlt]
  · rw [getD_append_ge _ _ _ (by simp; omega)]
    have hlen2 : k - (List.replicate (w - (lsfDigits n).length) (0 : ℕ)).length =
        k - (w - (lsfDigits n).length) := by simp
    rw [hlen2]
    have hidx : k - (w - (lsfDigits n).length) < (lsfDigits n).length := by omega
    rw [getD_reverse _ _ (by simpa using hidx), lsfDigits_getD]
    have hexp : (lsfDigits n).length - 1 - (k - (w - (lsfDigits n).length)) = w - 1 - k := by
      omega
    rw [hexp]

theorem countAt_cons (l : List Bool) (rows : List (List Bool)) (k : ℕ) :
    countAt (l :: rows) k = bitVal (l.getD k false) + countAt rows k := rfl

theorem countAt_le (rows : List (List Bool)) (k : ℕ) : countAt rows k ≤ rows.length := by
  induction rows with
  | nil => simp [countAt]
  | cons l rest ih =>
    rw [countAt_cons]
    have : bitVal (l.getD k false) ≤ 1 := by cases l.getD k false <;> simp [bitVal]
    simp only [List.length_cons]
    omega

theorem ofD_append_singleton (xs : List ℕ) (d : ℕ) :
    ofD (xs ++ [d]) = ofD xs + d * 10 ^ xs.length := by
  induction xs with
  | nil => simp [ofD]
  | cons x xs ih =>
    rw [List.cons_append]
    show x + 10 * ofD (xs ++ [d]) = _
    rw [ih]
    show _ = x + 10 * ofD xs + d * 10 ^ (xs.length + 1)
    ring

theorem decVal_foldl (l : List Bool) (a : ℕ) :
    l.foldl (fun a b => 10 * a + bitVal b) a = a * 10 ^ l.length + ofD ((l.map bitVal).reverse) := by
  induction l generalizing a with
  | nil => simp [ofD]
  | cons b t ih =>
    simp only [List.foldl_cons, List.map_cons, List.reverse_cons, ih,
      ofD_append_singleton, List.length_cons, List.length_reverse, List.length_map, pow_succ]
    ring

theorem decVal_eq_ofD (l : List Bool) : decVal l = ofD ((l.map bitVal).reverse) := by
  unfold decVal
  rw [decVal_foldl]
  simp

theorem zipWith_map_range (w : ℕ) (f g : ℕ → ℕ) :
    List.zipWith (· + ·) ((List.range w).map f) ((List.range w).map g) =
      (List.range w).map (fun x => f x + g x) := by
  induction w with
  | zero => rfl
  | succ v ih =>
    rw [List.range_succ, List.map_append, List.map_append, List.map_append,
      List.zipWith_append _ _ _ _ _ (by simp), ih]
    rfl

theorem ofD_all_zero (cs : List ℕ) (h : ∀ d ∈ cs, d = 0) : ofD cs = 0 := by
  induction cs with
  | nil => rfl
  | cons d ds ih =>
    simp only [ofD, h d (by simp), ih (fun e he => h e (by simp [he]))]

theorem row_lsf (l : List Bool) (w : ℕ) (hl : l.length = w) :
    (l.map bitVal).reverse = (List.range w).map (fun j => bitVal (l.getD (w - 1 - j) false)) := by
  apply List.ext_getElem
  · simp [hl]
  · intro i h1 h2
    simp only [List.length_reverse, List.length_map] at h1
    rw [List.getElem_reverse]
    simp only [List.getElem_map, List.getElem_range]
    congr 1
    rw [List.getD_eq_getElem?_getD, List.getElem?_eq_getElem (by omega)]
    simp only [Option.getD_some]
    congr 1
    simp only [List.length_map] at *
    omega

theorem chunk_sum (w : ℕ) (rows : List (List Bool)) (hrows : ∀ l ∈ rows, l.length = w) :
    (rows.map decVal).sum =
      ofD ((List.range w).map (fun j => countAt rows (w - 1 - j))) := by
  induction rows with
  | nil =>
    simp only [List.map_nil, List.sum_nil]
    rw [eq_comm]
    apply ofD_all_zero
    intro d hd
    obtain ⟨j, _, rfl⟩ := List.mem_map.mp hd
    simp [countAt]
  | cons l rest ih =>
    have hrest := ih (fun x hx => hrows x (by simp [hx]))
    simp only [List.map_cons, List.sum_cons, hrest, decVal_eq_ofD]
    rw [row_lsf l w (hrows l (by simp))]
    rw [← ofD_zipWith_add _ _ (by simp), zipWith_map_range]
    congr 1

theorem zipWith_add_getD (xs : List ℕ) : ∀ (ys : List ℕ) (k : ℕ), k < xs.length →
    k < ys.length →
    (List.zipWith (· + ·) xs ys).getD k 0 = xs.getD k 0 + ys.getD k 0 := by
  induction xs with
  | nil => intro ys k h1 _; simp at h1
  | cons x xs ih =>
    intro ys k h1 h2
    match ys, k with
    | y :: ys, 0 => simp
    | y :: ys, k + 1 =>
      simp only [List.zipWith_cons_cons, List.getD_cons_succ]
      exact ih ys k (by simpa using h1) (by simpa using h2)

theorem map_range_getD (w : ℕ) (f : ℕ → ℕ) (i : ℕ) (hi : i < w) :
    ((List.range w).map f).getD i 0 = f i := by
  rw [List.getD_eq_getElem?_getD, List.getElem?_map, List.getElem?_range hi]
  rfl

theorem totals_step (w : ℕ) (hw : 1 ≤ w) (tot : List ℕ) (htot : tot.length = w)
    (rows : List (List Bool)) (hrows : ∀ l ∈ rows, l.length = w) (hle : rows.length ≤ 9) :
    (List.zipWith (· + ·) tot (paddedDigits w ((rows.map decVal).sum))).length = w ∧
    ∀ k, k < w →
      (List.zipWith (· + ·) tot (paddedDigits w ((rows.map decVal).sum))).getD k 0 =
        tot.getD k 0 + countAt rows k := by
  have hS := chunk_sum w rows hrows
  have hdig : ∀ d ∈ (List.range w).map (fun j => countAt rows (w - 1 - j)), d < 10 := by
    intro d hd
    obtain ⟨j, _, rfl⟩ := List.mem_map.mp hd
    have := countAt_le rows (w - 1 - j)
    omega
  have hSlt : (rows.map decVal).sum < 10 ^ w := by
    rw [hS]
    have := ofD_lt _ hdig
    simpa using this
  have hplen : (paddedDigits w ((rows.map decVal).sum)).length = w :=
    paddedDigits_length w _ hw hSlt
  constructor
  · rw [List.length_zipWith, htot, hplen]
    omega
  · intro k hk
    rw [zipWith_add_getD _ _ k (by omega) (by omega)]
    congr 1
    rw [paddedDigits_getD w _ hw hSlt k hk, hS, ofD_extract _ hdig,
      map_range_getD w _ (w - 1 - k) (by omega)]
    congr 1
    omega

theorem chunksAux_congr (f1 : ℕ) : ∀ (f2 : ℕ) (l : List ℕ), l.length ≤ f1 → l.length ≤ f2 →
    chunksAux f1 l = chunksAux f2 l := by
  induction f1 with
  | zero =>
    intro f2 l h1 _
    have : l = [] := List.eq_nil_of_length_eq_zero (by omega)
    subst this
    match f2 with
    | 0 => rfl
    | v + 1 => simp [chunksAux]
  | succ g ih =>
    intro f2 l h1 h2
    match f2 with
    | 0 =>
      have : l = [] := List.eq_nil_of_length_eq_zero (by omega)
      subst this
      simp [chunksAux]
    | v + 1 =>
      by_cases h0 : l = []
      · subst h0; simp [chunksAux]
      · rw [chunksAux, chunksAux, if_neg (by simpa using h0), if_neg (by simpa using h0)]
        have hd : (l.drop 9).length ≤ g := by
          rw [List.length_drop]
          have : 1 ≤ l.length := List.length_pos.mpr h0
          omega
        have hd2 : (l.drop 9).length ≤ v := by
          rw [List.length_drop]
          have : 1 ≤ l.length := List.length_pos.mpr h0
          omega
        rw [ih g (l.drop 9) hd hd, ← ih v (l.drop 9) hd hd2]

theorem chunks9_cons (l : List ℕ) (h : l ≠ []) :
    chunks9 l = l.take 9 :: chunks9 (l.drop 9) := by
  unfold chunks9
  match l with
  | x :: xs =>
    rw [show (x :: xs).length = xs.length + 1 from rfl, chunksAux,
      if_neg (by simp)]
    congr 1
    apply chunksAux_congr
    · rw [List.length_drop]
      have hxx : (x :: xs).length = xs.length + 1 := rfl
      omega
    · rw [List.length_drop]

theorem list_mapM_length {α β : Type} (l : List α) (f : α → Option β) (r : List β)
    (h : l.mapM f = some r) : r.length = l.length := by
  induction l generalizing r with
  | nil =>
    simp only [List.mapM_nil, pure, Option.some.injEq] at h
    subst h
    rfl
  | cons x xs ih =>
    rw [List.mapM_cons] at h
    cases hfx : f x with
    | none => rw [hfx] at h; simp at h
    | some y =>
      rw [hfx] at h
      cases hxs : xs.mapM f with
      | none => rw [hxs] at h; simp at h
      | some ys =>
        rw [hxs] at h
        simp only [Option.bind_eq_bind, Option.some_bind, pure, Option.some.injEq] at h
        subst h
        simp [ih ys hxs]

theorem chunks9_nil : chunks9 ([] : List ℕ) = [] := rfl

theorem totalsOf_many (w : ℕ) (ns : List ℕ) (h10 : 10 ≤ ns.length) :
    totalsOf w ns = none := by
  have h1 : ns ≠ [] := by
    intro he
    rw [he] at h10
    simp at h10
  have h2 : ns.drop 9 ≠ [] := by
    intro he
    have := congrArg List.length he
    simp only [List.length_drop, List.length_nil] at this
    omega
  unfold totalsOf
  rw [chunks9_cons _ h1, chunks9_cons _ h2]
  rfl

theorem totals_spec (w : ℕ) (hw : 1 ≤ w) (rows : List (List Bool))
    (hrows : ∀ l ∈ rows, l.length = w) (hle : rows.length ≤ 9) :
    totalsOf w (rows.map decVal) = some ((totalsOf w (rows.map decVal)).getD []) ∧
    ((totalsOf w (rows.map decVal)).getD []).length = w ∧
    ∀ k, k < w → ((totalsOf w (rows.map decVal)).getD []).getD k 0 = countAt rows k := by
  by_cases h0 : rows = []
  · subst h0
    refine ⟨rfl, by simp [totalsOf, chunks9_nil], fun k hk => ?_⟩
    show (List.replicate w 0).getD k 0 = countAt [] k
    rw [getD_replicate_zero]
    simp [countAt]
  · have hne : rows.map decVal ≠ [] := by simpa using h0
    have hch : chunks9 (rows.map decVal) = [rows.map decVal] := by
      rw [chunks9_cons _ hne]
      have hdrop : (rows.map decVal).drop 9 = [] :=
        List.drop_eq_nil_of_le (by simpa using hle)
      rw [hdrop, chunks9_nil]
      have htake : (rows.map decVal).take 9 = rows.map decVal :=
        List.take_of_length_le (by simpa using hle)
      rw [htake]
    have hstep := totals_step w hw (List.replicate w 0) (by simp) rows hrows hle
    have hval : totalsOf w (rows.map decVal) =
        some (List.zipWith (· + ·) (List.replicate w 0)
          (paddedDigits w ((rows.map decVal).sum))) := by
      unfold totalsOf
      rw [hch]
      rfl
    rw [hval]
    refine ⟨rfl, hstep.1, fun k hk => ?_⟩
    show (List.zipWith (· + ·) (List.replicate w 0)
      (paddedDigits w ((rows.map decVal).sum))).getD k 0 = countAt rows k
    rw [hstep.2 k hk, getD_replicate_zero]
    omega

theorem rot_getD (l : List Bool) (s k : ℕ) (hs : s ≤ l.length) (hk : k < l.length) :
    (l.drop s ++ l.take s).getD k false = l.getD ((k + s) % l.length) false := by
  rw [← List.rotate_eq_drop_append_take hs, List.getD_eq_getElem?_getD,
    List.getD_eq_getElem?_getD, ← List.get?_eq_getElem?, ← List.get?_eq_getElem?,
    List.get?_rotate hk]

theorem slice_getD (bits : List Bool) (start w j : ℕ) (hj : j < w) :
    ((bits.drop start).take w).getD j false = bits.getD (start + j) false := by
  rw [List.getD_eq_getElem?_getD, List.getD_eq_getElem?_getD,
    List.getElem?_take_of_lt hj, List.getElem?_drop]

theorem slice_length (bits : List Bool) (h w r : ℕ) (hlen : bits.length = h * w)
    (hr : r < h) : ((bits.drop (r * w)).take w).length = w := by
  rw [List.length_take, List.length_drop, hlen]
  have h1 : r * w + w ≤ h * w := by
    have := Nat.mul_le_mul_right w (show r + 1 ≤ h from hr)
    simpa [Nat.succ_mul] using this
  omega

theorem mul_emod_row (x : ℤ) (h w : ℕ) (hw : 0 < w) :
    x * (w : ℤ) % ((h : ℤ) * (w : ℤ)) = x % (h : ℤ) * (w : ℤ) := by
  have hw' : (0 : ℤ) < w := by exact_mod_cast hw
  calc x * (w : ℤ) % ((h : ℤ) * (w : ℤ))
      = (w : ℤ) * x % ((w : ℤ) * (h : ℤ)) := by rw [mul_comm x (w : ℤ), mul_comm (h : ℤ) (w : ℤ)]
    _ = (w : ℤ) * (x % (h : ℤ)) := Int.mul_emod_mul_of_pos x (h : ℤ) hw'
    _ = x % (h : ℤ) * (w : ℤ) := mul_comm _ _

theorem map_range_getD' {α : Type} (w : ℕ) (f : ℕ → α) (d : α) (i : ℕ) (hi : i < w) :
    ((List.range w).map f).getD i d = f i := by
  rw [List.getD_eq_getElem?_getD, List.getElem?_map, List.getElem?_range hi]
  rfl

theorem flatten_get? (L : List (List ℕ)) (w : ℕ) (hL : ∀ x ∈ L, x.length = w) :
    ∀ lv k : ℕ, lv < L.length → k < w →
    L.flatten.get? (lv * w + k) = (L.getD lv []).get? k := by
  induction L with
  | nil => intro lv k hlv _; simp at hlv
  | cons x xs ih =>
    intro lv k hlv hk
    match lv with
    | 0 =>
      simp only [List.flatten_cons, Nat.zero_mul, Nat.zero_add, List.getD_cons_zero]
      rw [List.get?_eq_getElem?, List.get?_eq_getElem?,
        List.getElem?_append_left (by rw [hL x (by simp)]; omega)]
    | lv + 1 =>
      simp only [List.flatten_cons, List.getD_cons_succ]
      rw [List.get?_eq_getElem?,
        List.getElem?_append_right (by rw [hL x (by simp)]; nlinarith [hk]),
        ← List.get?_eq_getElem?]
      have hidx : (lv + 1) * w + k - x.length = lv * w + k := by
        rw [hL x (by simp)]
        have : (lv + 1) * w = lv * w + w := by ring
        omega
      rw [hidx]
      exact ih (fun y hy => hL y (by simp [hy])) lv k (by simpa using hlv) hk

theorem get?_eq_some_getD (l : List ℕ) (k : ℕ) (hk : k < l.length) :
    l.get? k = some (l.getD k 0) := by
  rw [List.get?_eq_getElem?, List.getElem?_eq_getElem hk, List.getD_eq_getElem?_getD,
    List.getElem?_eq_getElem hk]
  rfl

/-! ### C2 — correctness of the batched totals against the naive sum -/

theorem rowEntry_spec (h w : ℕ) (bits : List Bool) (hh : 0 < h) (hw : 0 < w)
    (hlen : bits.length = h * w) (level : ℕ) (a b : ℤ) :
    rowEntry ⟨[(h : ℤ), (w : ℤ)], bits⟩ level [a, b] =
      some (decVal (mkSeq2D h w bits level a b)) := by
  simp only [rowEntry]
  simp only [Plane.offsets, offsetsOf, List.headD_cons, List.prod_cons, List.prod_nil, mul_one]
  have hhz : (0 : ℤ) < h := by exact_mod_cast hh
  have hwz : (0 : ℤ) < w := by exact_mod_cast hw
  have hr_nonneg : 0 ≤ ((level : ℤ) + a) % (h : ℤ) := Int.emod_nonneg _ (by omega)
  have hr_lt_z : ((level : ℤ) + a) % (h : ℤ) < h := Int.emod_lt_of_pos _ hhz
  have hr_cast : ((level : ℤ) + a) % (h : ℤ) = (((((level : ℤ) + a) % (h : ℤ)).toNat : ℕ) : ℤ) :=
    (Int.toNat_of_nonneg hr_nonneg).symm
  simp only [hlen, Nat.cast_mul, mul_emod_row _ h w hw, List.tail_cons]
  rw [hr_cast]
  simp only [← Nat.cast_mul, Int.toNat_natCast]
  have hr_lt : (((level : ℤ) + a) % (h : ℤ)).toNat < h := by omega
  set RB := List.take w (List.drop ((((level : ℤ) + a) % (h : ℤ)).toNat * w) bits) with hRB
  have hrb_len : RB.length = w := by
    rw [hRB]
    have := slice_length bits h w ((((level : ℤ) + a) % (h : ℤ))).toNat hlen hr_lt
    simpa using this
  have hflat : (Plane.mk [(w : ℤ)] RB).flatten [b] = some (b % (w : ℤ)) := by
    unfold Plane.flatten
    simp [Plane.N, Plane.offsets, offsetsOf, flattenSum, hrb_len, show w ≠ 0 by omega]
  rw [hflat, Option.some_bind]
  have hs_nonneg : 0 ≤ b % (w : ℤ) := Int.emod_nonneg _ (by omega)
  have hs_lt_z : b % (w : ℤ) < w := Int.emod_lt_of_pos _ hwz
  have hseq_len : (RB.drop (b % (w : ℤ)).toNat ++ RB.take (b % (w : ℤ)).toNat).length = w := by
    simp only [List.length_append, List.length_drop, List.length_take, hrb_len]
    omega
  rw [if_neg (by
    rw [List.isEmpty_iff]
    intro he
    rw [he] at hseq_len
    simp at hseq_len
    omega)]
  rfl

theorem mkSeq2D_length (h w : ℕ) (bits : List Bool) (hh : 0 < h) (hw : 0 < w)
    (hlen : bits.length = h * w) (level : ℕ) (a b : ℤ) :
    (mkSeq2D h w bits level a b).length = w := by
  have hhz : (0 : ℤ) < h := by exact_mod_cast hh
  have hwz : (0 : ℤ) < w := by exact_mod_cast hw
  have hr_nonneg : 0 ≤ ((level : ℤ) + a) % (h : ℤ) := Int.emod_nonneg _ (by omega)
  have hr_lt_z : ((level : ℤ) + a) % (h : ℤ) < h := Int.emod_lt_of_pos _ hhz
  have hr_lt : (((level : ℤ) + a) % (h : ℤ)).toNat < h := by omega
  have hs_nonneg : 0 ≤ b % (w : ℤ) := Int.emod_nonneg _ (by omega)
  have hs_lt_z : b % (w : ℤ) < w := Int.emod_lt_of_pos _ hwz
  set RB := (bits.drop ((((level : ℤ) + a) % (h : ℤ)).toNat * w)).take w with hRB
  have hrb : RB.length = w := slice_length bits h w ((((level : ℤ) + a) % (h : ℤ))).toNat hlen hr_lt
  show (RB.drop (b % (w : ℤ)).toNat ++ RB.take (b % (w : ℤ)).toNat).length = w
  simp only [List.length_append, List.length_drop, List.length_take, hrb]
  omega

theorem mkSeq2D_getD (h w : ℕ) (bits : List Bool) (hh : 0 < h) (hw : 0 < w)
    (hlen : bits.length = h * w) (level : ℕ) (a b : ℤ) (k : ℕ) (hk : k < w) :
    (mkSeq2D h w bits level a b).getD k false =
      bits.getD ((((level : ℤ) + a) % (h : ℤ)).toNat * w +
        (((k : ℤ) + b) % (w : ℤ)).toNat) false := by
  have hhz : (0 : ℤ) < h := by exact_mod_cast hh
  have hwz : (0 : ℤ) < w := by exact_mod_cast hw
  have hr_nonneg : 0 ≤ ((level : ℤ) + a) % (h : ℤ) := Int.emod_nonneg _ (by omega)
  have hr_lt_z : ((level : ℤ) + a) % (h : ℤ) < h := Int.emod_lt_of_pos _ hhz
  have hr_lt : (((level : ℤ) + a) % (h : ℤ)).toNat < h := by omega
  have hs_nonneg : 0 ≤ b % (w : ℤ) := Int.emod_nonneg _ (by omega)
  have hs_lt_z : b % (w : ℤ) < w := Int.emod_lt_of_pos _ hwz
  set r := (((level : ℤ) + a) % (h : ℤ)).toNat with hr_def
  set s := (b % (w : ℤ)).toNat with hs_def
  set RB := (bits.drop (r * w)).take w with hRB
  have hrb_len : RB.length = w := slice_length bits h w r hlen hr_lt
  show (RB.drop s ++ RB.take s).getD k false = _
  rw [rot_getD RB s k (by omega) (by omega), hrb_len, hRB,
    slice_getD bits (r * w) w ((k + s) % w) (Nat.mod_lt _ hw)]
  have hs_cast : (s : ℤ) = b % (w : ℤ) := Int.toNat_of_nonneg hs_nonneg
  have h2 : (((k + s) % w : ℕ) : ℤ) = ((k : ℤ) + b) % (w : ℤ) := by
    push_cast
    rw [hs_cast]
    conv_rhs => rw [Int.add_emod]
    conv_lhs => rw [Int.add_emod]
    rw [Int.emod_emod_of_dvd b (dvd_refl (w : ℤ))]
  have hcol : (k + s) % w = (((k : ℤ) + b) % (w : ℤ)).toNat := by omega
  rw [hcol]

/-- Unfolding equation of `getTotalsND` for a nonempty shape. -/
theorem getTotalsND_cons (s0 : ℤ) (rest : List ℤ) (bits : List Bool)
    (offsets : List (List ℤ)) :
    Neighborhood.getTotalsND ⟨s0 :: rest, bits⟩ offsets =
      ((List.range s0.toNat).mapM (fun level =>
        (offsets.mapM (rowEntry ⟨s0 :: rest, bits⟩ level)).bind
          (fun neighboring =>
            totalsOf ((Plane.mk (s0 :: rest) bits).offsets.headD 0).toNat neighboring))).map
        List.flatten := rfl

/-- Claim C2 (amended): on two-dimensional planes with at most nine
offsets the batched `get_totals` returns, at position `level·w + k`,
exactly the naive per-cell sum with per-component wraparound — the value
of each neighbor `(level, k) + (a, b)` is read at row `(level + a) mod h`
and column `(k + b) mod w`.  (This is not the flat-index-wrapped sum.)
With ten or more offsets the accumulation loop rebinds `totals` to a lazy
`map` object and the second chunk's `len(totals)` raises `TypeError`, so
`get_totals` returns no value at all; the one-dimensional branch raises
`IndexError` for positive offsets past the right edge — see the
counterexample. -/
theorem getTotals_eq_per_component_2D (h w : ℕ) (bits : List Bool)
    (offsets : List (List ℤ)) (hh : 0 < h) (hw : 0 < w)
    (hlen : bits.length = h * w) (hari : ∀ o ∈ offsets, o.length = 2)
    (hnine : offsets.length ≤ 9)
    (level k : ℕ) (hl : level < h) (hk : k < w) :
    (∃ ns : List ℕ,
      Neighborhood.getTotalsND ⟨[(h : ℤ), (w : ℤ)], bits⟩ offsets = some ns ∧
      ns.length = h * w ∧
      ns.get? (level * w + k) = some (specTotal2D h w bits offsets level k)) ∧
    ∀ big : List (List ℤ), 10 ≤ big.length →
      Neighborhood.getTotalsND ⟨[(h : ℤ), (w : ℤ)], bits⟩ big = none := by
  have htwo : ∀ o ∈ offsets, ∃ a b : ℤ, o = [a, b] := by
    intro o ho
    have h2 := hari o ho
    match o, h2 with
    | [a, b], _ => exact ⟨a, b, rfl⟩
  have hrows_len : ∀ level' : ℕ, ∀ l ∈ offsets.map
      (fun o => mkSeq2D h w bits level' (o.headD 0) (o.getD 1 0)), l.length = w := by
    intro level' l hl'
    obtain ⟨o, ho, rfl⟩ := List.mem_map.mp hl'
    exact mkSeq2D_length h w bits hh hw hlen level' _ _
  have hinner : ∀ level' : ℕ,
      offsets.mapM (rowEntry ⟨[(h : ℤ), (w : ℤ)], bits⟩ level') =
        some ((offsets.map
          (fun o => mkSeq2D h w bits level' (o.headD 0) (o.getD 1 0))).map decVal) := by
    intro level'
    rw [List.map_map]
    apply list_mapM_eq_some
    intro o ho
    obtain ⟨a, b, rfl⟩ := htwo o ho
    exact rowEntry_spec h w bits hh hw hlen level' a b
  have hW : ((Plane.mk [(h : ℤ), (w : ℤ)] bits).offsets.headD 0).toNat = w := by
    simp [Plane.offsets, offsetsOf]
  have htot : ∀ level' : ℕ,
      totalsOf w ((offsets.map
        (fun o => mkSeq2D h w bits level' (o.headD 0) (o.getD 1 0))).map decVal) =
        some ((totalsOf w ((offsets.map
          (fun o => mkSeq2D h w bits level' (o.headD 0) (o.getD 1 0))).map decVal)).getD []) ∧
      ((totalsOf w ((offsets.map
        (fun o => mkSeq2D h w bits level' (o.headD 0) (o.getD 1 0))).map decVal)).getD []).length = w ∧
      ∀ k' : ℕ, k' < w → ((totalsOf w ((offsets.map
        (fun o => mkSeq2D h w bits level' (o.headD 0) (o.getD 1 0))).map decVal)).getD []).getD k' 0 =
          countAt (offsets.map (fun o => mkSeq2D h w bits level' (o.headD 0) (o.getD 1 0))) k' :=
    fun level' => totals_spec w (by omega) _ (hrows_len level')
      (by rw [List.length_map]; exact hnine)
  have houter :
      (List.range h).mapM (fun level' =>
        (offsets.mapM (rowEntry ⟨[(h : ℤ), (w : ℤ)], bits⟩ level')).bind
          (fun neighboring =>
            totalsOf ((Plane.mk [(h : ℤ), (w : ℤ)] bits).offsets.headD 0).toNat neighboring)) =
      some ((List.range h).map (fun level' =>
        (totalsOf w ((offsets.map
          (fun o => mkSeq2D h w bits level' (o.headD 0) (o.getD 1 0))).map decVal)).getD [])) := by
    apply list_mapM_eq_some
    intro level' _
    rw [hinner level', hW, Option.some_bind]
    exact (htot level').1
  constructor
  · refine ⟨((List.range h).map (fun level' =>
      (totalsOf w ((offsets.map
        (fun o => mkSeq2D h w bits level' (o.headD 0) (o.getD 1 0))).map decVal)).getD [])).flatten,
      ?_, ?_, ?_⟩
    · rw [getTotalsND_cons, Int.toNat_natCast, houter]
      rfl
    · rw [List.length_flatten, List.map_map]
      have hconst : (List.range h).map (List.length ∘ fun level' =>
          (totalsOf w ((offsets.map
            (fun o => mkSeq2D h w bits level' (o.headD 0) (o.getD 1 0))).map decVal)).getD []) =
          (List.range h).map (fun _ => w) := by
        apply List.map_congr_left
        intro level' _
        exact (htot level').2.1
      rw [hconst, List.map_const', List.sum_replicate, smul_eq_mul]
      simp [List.length_range]
    · have hL : ∀ x ∈ (List.range h).map (fun level' =>
          (totalsOf w ((offsets.map
            (fun o => mkSeq2D h w bits level' (o.headD 0) (o.getD 1 0))).map decVal)).getD []),
          x.length = w := by
        intro x hx
        obtain ⟨lv, _, rfl⟩ := List.mem_map.mp hx
        exact (htot lv).2.1
      rw [flatten_get? _ w hL level k (by simp [List.length_map, List.length_range]; omega) hk]
      rw [map_range_getD' h _ [] level hl]
      rw [get?_eq_some_getD _ k (by rw [(htot level).2.1]; exact hk)]
      congr 1
      rw [(htot level).2.2 k hk]
      unfold countAt specTotal2D
      rw [List.map_map]
      congr 1
      apply List.map_congr_left
      intro o ho
      obtain ⟨a, b, rfl⟩ := htwo o ho
      show bitVal ((mkSeq2D h w bits level a b).getD k false) = _
      rw [mkSeq2D_getD h w bits hh hw hlen level a b k hk]
      rfl
  · intro big h10
    obtain ⟨m, rfl⟩ : ∃ m, h = m + 1 := ⟨h - 1, by omega⟩
    rw [getTotalsND_cons, Int.toNat_natCast, List.range_succ_eq_map, List.mapM_cons]
    have hf0 : (big.mapM (rowEntry ⟨[((m + 1 : ℕ) : ℤ), (w : ℤ)], bits⟩ 0)).bind
        (fun neighboring =>
          totalsOf ((Plane.mk [((m + 1 : ℕ) : ℤ), (w : ℤ)] bits).offsets.headD 0).toNat
            neighboring) = none := by
      cases hmm : big.mapM (rowEntry ⟨[((m + 1 : ℕ) : ℤ), (w : ℤ)], bits⟩ 0) with
      | none => rfl
      | some nb =>
        rw [Option.some_bind]
        apply totalsOf_many
        rw [list_mapM_length big _ nb hmm]
        exact h10
    rw [hf0]
    rfl

/-- Claim C2 counterexample: on the one-dimensional plane `(1, 1)` with the
single positive offset `1`, `get_totals` computes `plane.bits[i + 1]`
without any modulo, so at the right edge it raises `IndexError` (`none`)
instead of wrapping, while the naive per-cell wraparound sum
`sum(grid.get(i + o))` is defined at every cell and equals `1`. -/
theorem getTotals_naive_sum_fails :
    Neighborhood.getTotals1D [true, true] [1] = none ∧
    specTotal1D [true, true] 0 [1] = 1 ∧ specTotal1D [true, true] 1 [1] = 1 := by decide

/-- Witness for the amended C2 theorem at a concrete `2 × 3` plane with the
offsets `(0, 1)` and `(1, -1)`, at cell `(1, 2)`. -/
theorem getTotals_eq_per_component_2D_witness :
    (∃ ns : List ℕ,
      Neighborhood.getTotalsND ⟨[(2 : ℤ), (3 : ℤ)], [true, false, true, false, false, true]⟩
        [[0, 1], [1, -1]] = some ns ∧
      ns.length = 2 * 3 ∧
      ns.get? (1 * 3 + 2) =
        some (specTotal2D 2 3 [true, false, true, false, false, true] [[0, 1], [1, -1]] 1 2)) ∧
    ∀ big : List (List ℤ), 10 ≤ big.length →
      Neighborhood.getTotalsND ⟨[(2 : ℤ), (3 : ℤ)], [true, false, true, false, false, true]⟩
        big = none :=
  getTotals_eq_per_component_2D 2 3 [true, false, true, false, false, true] [[0, 1], [1, -1]]
    (by decide) (by decide) (by decide) (by decide) (by decide) 1 2 (by decide) (by decide)
